import Mathlib

/-!
Verification development for the xdg-app deployment store
(`src/common/xdg-app-dir.c`).

The C code manipulates a directory hierarchy through GIO.  We embed the
parts of that state the verified functions observe:

* the children of a ref's deploy base are a `List DirEnt` (name, file
  type, and symlink target);
* file contents that the code parses as GKeyFile documents are embedded
  as structured key files `List (String × List (String × String))`;
* external library routines (`g_shell_parse_argv`, zlib inflation) are
  parameters of the embedded functions, since the C code only forwards
  their results.

Function names follow the C source.
-/

/-- File type as reported by `g_file_info_get_file_type` /
`fstatat`, restricted to the cases the code distinguishes. -/
inductive FType where
  | dir
  | regular
  | symlink
  deriving DecidableEq

/-- One directory entry of the deploy base: its name, its file type and,
for symlinks, the link target. -/
structure DirEnt where
  name : String
  ftype : FType
  target : String
  deriving DecidableEq

/-- Error kinds surfaced by the deployment-layer functions
(`XDG_APP_DIR_ERROR_*` plus generic I/O failures). -/
inductive DirErr where
  | alreadyDeployed
  | alreadyUndeployed
  | fileExists
  | rewriteFailed
  deriving DecidableEq

/-- `xdg_app_dir_read_active`: query the `active` child with
`G_FILE_QUERY_INFO_NOFOLLOW_SYMLINKS`; a missing file yields NULL, a
non-symlink has no symlink target (NULL as well), a symlink yields its
target. -/
def xdg_app_dir_read_active (entries : List DirEnt) : Option String :=
  match entries.find? (fun e => e.name == "active") with
  | none => none
  | some e =>
    match e.ftype with
    | FType.symlink => some e.target
    | _ => none

/-- `xdg_app_dir_set_active`: with a checksum, create a fresh
`.active-<salt>` symlink to the checksum (`g_file_make_symbolic_link`
fails if the name exists) and rename it over `active` (the rename
atomically replaces any previous `active`); with no checksum, delete
`active`, treating a missing file as success. -/
def xdg_app_dir_set_active (entries : List DirEnt) (checksum : Option String)
    (salt : String) : Except DirErr (List DirEnt) :=
  match checksum with
  | some c =>
    let tmpname := ".active-" ++ salt
    if entries.any (fun e => e.name == tmpname) then
      Except.error DirErr.fileExists
    else
      Except.ok (((entries ++ [DirEnt.mk tmpname FType.symlink c]).filter
          (fun e => e.name != "active")).map
        (fun e => if e.name == tmpname then DirEnt.mk "active" e.ftype e.target else e))
  | none =>
    Except.ok (entries.filter (fun e => e.name != "active"))

/-- The collection loop of `xdg_app_dir_list_deployed`: keep each child
that is a directory, whose name does not start with `.`, and whose name
has length 64. -/
def deployedChecksums : List DirEnt → List String
  | [] => []
  | e :: rest =>
    if e.ftype = FType.dir ∧ e.name.data.head? ≠ some '.' ∧ e.name.length = 64 then
      e.name :: deployedChecksums rest
    else
      deployedChecksums rest

/-- `xdg_app_dir_list_deployed`: enumerating a missing deploy base
reports `G_IO_ERROR_NOT_FOUND`, which the function converts to success
with an empty list; otherwise the children are filtered by
`deployedChecksums`. -/
def xdg_app_dir_list_deployed : Option (List DirEnt) → Except DirErr (List String)
  | none => Except.ok []
  | some entries => Except.ok (deployedChecksums entries)

/-- The fallback-selection loop of `xdg_app_dir_undeploy`: the first
deployed checksum different from the one being removed. -/
def firstOther : List String → String → Option String
  | [], _ => none
  | d :: ds, c => if d = c then firstOther ds c else some d

/-- `xdg_app_dir_undeploy`: fail `ALREADY_UNDEPLOYED` if the checkout is
absent; if `active` targets the removed checksum, repoint it to the
first other deployed checksum (or remove it when none exists); finally
rename the checkout away into `.removed/` (it disappears from the
deploy base).  The later forced/unlocked `rm -rf` of the moved
directory never fails the call. -/
def xdg_app_dir_undeploy (entries : List DirEnt) (checksum : String)
    (force_remove : Bool) (salt : String) : Except DirErr (List DirEnt) :=
  if ¬ entries.any (fun e => e.name == checksum) then
    Except.error DirErr.alreadyUndeployed
  else
    let step :=
      match xdg_app_dir_read_active entries with
      | some active =>
        if active = checksum then
          match xdg_app_dir_list_deployed (some entries) with
          | Except.error e => Except.error e
          | Except.ok deployed =>
            xdg_app_dir_set_active entries (firstOther deployed checksum) salt
        else Except.ok entries
      | none => Except.ok entries
    match step with
    | Except.error e => Except.error e
    | Except.ok es => Except.ok (es.filter (fun e => e.name != checksum))

/-! Helper lemmas about the deploy-base model. -/

deriving instance DecidableEq for Except

theorem tmp_ne_active (salt : String) : (".active-" ++ salt) ≠ "active" := by
  intro h
  have h2 := congrArg (fun s => s.data.head?) h
  simp only [String.data_append] at h2
  simp at h2

theorem map_rename_of_fresh (l : List DirEnt) (tmpname : String)
    (h : ∀ e ∈ l, e.name ≠ tmpname) :
    l.map (fun e => if e.name == tmpname then DirEnt.mk "active" e.ftype e.target else e)
      = l := by
  induction l with
  | nil => rfl
  | cons a rest ih =>
    have ha : a.name ≠ tmpname := h a (List.mem_cons_self a rest)
    have hrest := ih fun e he => h e (List.mem_cons_of_mem a he)
    simp only [List.map_cons, hrest]
    congr 1
    simp [ha]

theorem find_active_none (l : List DirEnt) (h : ∀ e ∈ l, e.name ≠ "active") :
    l.find? (fun e => e.name == "active") = none := by
  rw [List.find?_eq_none]
  intro e he
  simp [h e he]

/-- After a successful `xdg_app_dir_set_active` with a checksum, the
resulting deploy base consists of the old non-`active` entries followed
by a fresh `active` symlink to the checksum. -/
theorem set_active_ok_shape (entries es : List DirEnt) (c salt : String)
    (h : xdg_app_dir_set_active entries (some c) salt = Except.ok es) :
    (¬ entries.any (fun e => e.name == ".active-" ++ salt) = true) ∧
    es = entries.filter (fun e => e.name != "active")
           ++ [DirEnt.mk "active" FType.symlink c] := by
  simp only [xdg_app_dir_set_active] at h
  by_cases hany : entries.any (fun e => e.name == ".active-" ++ salt) = true
  · rw [if_pos hany] at h
    cases h
  · refine ⟨hany, ?_⟩
    rw [if_neg hany] at h
    injection h with h
    rw [← h, List.filter_append, List.map_append]
    have hfresh : ∀ e ∈ entries.filter (fun e => e.name != "active"),
        e.name ≠ ".active-" ++ salt := by
      intro e he heq
      have hmem := List.mem_of_mem_filter he
      apply hany
      rw [List.any_eq_true]
      exact ⟨e, hmem, by simp [heq]⟩
    rw [map_rename_of_fresh _ _ hfresh]
    have htne : (".active-" ++ salt) ≠ "active" := tmp_ne_active salt
    simp [htne]

theorem read_active_of_set (entries es : List DirEnt) (c salt : String)
    (h : xdg_app_dir_set_active entries (some c) salt = Except.ok es) :
    xdg_app_dir_read_active es = some c := by
  obtain ⟨-, hshape⟩ := set_active_ok_shape entries es c salt h
  subst hshape
  unfold xdg_app_dir_read_active
  rw [List.find?_append]
  have hnone : (entries.filter (fun e => e.name != "active")).find?
      (fun e => e.name == "active") = none := by
    apply find_active_none
    intro e he
    have := List.of_mem_filter he
    simpa using this
  rw [hnone]
  simp

theorem read_active_of_unset (entries : List DirEnt) :
    xdg_app_dir_read_active (entries.filter (fun e => e.name != "active")) = none := by
  unfold xdg_app_dir_read_active
  rw [find_active_none]
  intro e he
  have := List.of_mem_filter he
  simpa using this

/-- The collection loop is exactly a filter of the directory listing. -/
theorem deployedChecksums_eq (l : List DirEnt) :
    deployedChecksums l =
      (l.filter (fun e => e.ftype = FType.dir ∧ e.name.data.head? ≠ some '.' ∧
          e.name.length = 64)).map (fun e => e.name) := by
  induction l with
  | nil => rfl
  | cons a rest ih =>
    rw [deployedChecksums]
    by_cases hc : a.ftype = FType.dir ∧ a.name.data.head? ≠ some '.' ∧
        a.name.length = 64
    · rw [if_pos hc, List.filter_cons, ih]
      simp [hc]
    · rw [if_neg hc, List.filter_cons, ih]
      simp [hc]

/-- Membership characterization of the `list_deployed` collection loop. -/
theorem mem_deployedChecksums (l : List DirEnt) (d : String) :
    d ∈ deployedChecksums l ↔
      ∃ e ∈ l, e.ftype = FType.dir ∧ e.name.data.head? ≠ some '.' ∧
        e.name.length = 64 ∧ e.name = d := by
  rw [deployedChecksums_eq]
  simp only [List.mem_map, List.mem_filter, decide_eq_true_eq]
  constructor
  · rintro ⟨e, ⟨he, h1, h2, h3⟩, h4⟩
    exact ⟨e, he, h1, h2, h3, h4⟩
  · rintro ⟨e, he, h1, h2, h3, h4⟩
    exact ⟨e, ⟨he, h1, h2, h3⟩, h4⟩

theorem firstOther_some : ∀ (l : List String) (c d : String),
    firstOther l c = some d → d ∈ l ∧ d ≠ c
  | [], c, d, h => by simp [firstOther] at h
  | a :: rest, c, d, h => by
    rw [firstOther] at h
    by_cases hac : a = c
    · rw [if_pos hac] at h
      obtain ⟨h1, h2⟩ := firstOther_some rest c d h
      exact ⟨List.mem_cons_of_mem a h1, h2⟩
    · rw [if_neg hac] at h
      injection h with h
      subst h
      exact ⟨List.mem_cons_self a rest, hac⟩

theorem firstOther_none : ∀ (l : List String) (c : String),
    firstOther l c = none → ∀ x ∈ l, x = c
  | [], _, _ => by simp
  | a :: rest, c, h => by
    rw [firstOther] at h
    by_cases hac : a = c
    · rw [if_pos hac] at h
      intro x hx
      rcases List.mem_cons.mp hx with rfl | hx'
      · exact hac
      · exact firstOther_none rest c h x hx'
    · rw [if_neg hac] at h
      cases h

/-- C2: after a successful `set-active(ref, c)` the `active` symlink
reads back exactly `c`; `set-active(ref, absent)` always succeeds —
also when no `active` link exists — and afterwards `read-active` is
absent. -/
theorem claim_C2 :
    (∀ (entries es : List DirEnt) (c salt : String),
       xdg_app_dir_set_active entries (some c) salt = Except.ok es →
       xdg_app_dir_read_active es = some c) ∧
    (∀ (entries : List DirEnt) (salt : String),
       ∃ es, xdg_app_dir_set_active entries none salt = Except.ok es ∧
         xdg_app_dir_read_active es = none) := by
  constructor
  · exact fun entries es c salt h => read_active_of_set entries es c salt h
  · intro entries salt
    refine ⟨entries.filter (fun e => e.name != "active"), rfl, ?_⟩
    exact read_active_of_unset entries

/-- Witness for C2 at a concrete deploy base with no `active` link for
the delete half, and a concrete successful swap for the first half. -/
theorem claim_C2_witness :
    xdg_app_dir_read_active
        [DirEnt.mk "cc11" FType.dir "",
         DirEnt.mk "active" FType.symlink "dd22"] = some "dd22" ∧
    (∃ es, xdg_app_dir_set_active [DirEnt.mk "cc11" FType.dir ""] none "s1"
             = Except.ok es ∧ xdg_app_dir_read_active es = none) := by
  constructor
  · exact claim_C2.1 [DirEnt.mk "cc11" FType.dir ""] _ "dd22" "s1" (by decide)
  · exact claim_C2.2 [DirEnt.mk "cc11" FType.dir ""] "s1"

/-- C10: `list-deployed` returns exactly the names of the children of
the deploy base that are directories, whose name does not start with a
dot, and whose name is 64 characters long — with no further (hex)
validation — and a missing deploy base gives success with an empty
list. -/
theorem claim_C10 :
    (∀ entries : List DirEnt,
       xdg_app_dir_list_deployed (some entries) =
         Except.ok ((entries.filter (fun e =>
             e.ftype = FType.dir ∧ e.name.data.head? ≠ some '.' ∧
               e.name.length = 64)).map (fun e => e.name))) ∧
    xdg_app_dir_list_deployed none = Except.ok [] := by
  constructor
  · intro entries
    exact congrArg Except.ok (deployedChecksums_eq entries)
  · rfl

theorem read_active_append_link (l : List DirEnt) (c : String)
    (h : ∀ e ∈ l, e.name ≠ "active") :
    xdg_app_dir_read_active (l ++ [DirEnt.mk "active" FType.symlink c]) = some c := by
  unfold xdg_app_dir_read_active
  rw [List.find?_append, find_active_none l h]
  simp

/-- C1: a successful undeploy of the checksum the `active` link targets
leaves `active` pointing at some other checksum that is still deployed
under the deploy base when one remains, and leaves `active` absent when
none remains. -/
theorem claim_C1 (entries es' : List DirEnt) (c : String) (force : Bool)
    (salt : String)
    (hc : c ≠ "active")
    (hact : xdg_app_dir_read_active entries = some c)
    (hrun : xdg_app_dir_undeploy entries c force salt = Except.ok es') :
    (deployedChecksums es' ≠ [] →
       ∃ d, xdg_app_dir_read_active es' = some d ∧ d ≠ c ∧
         d ∈ deployedChecksums es') ∧
    (deployedChecksums es' = [] → xdg_app_dir_read_active es' = none) := by
  simp only [xdg_app_dir_undeploy] at hrun
  by_cases hex : entries.any (fun e => e.name == c) = true
  · rw [if_neg (not_not_intro hex)] at hrun
    simp only [hact, if_pos rfl, xdg_app_dir_list_deployed] at hrun
    cases hfo : firstOther (deployedChecksums entries) c with
    | some d =>
      rw [hfo] at hrun
      cases hsa : xdg_app_dir_set_active entries (some d) salt with
      | error e => rw [hsa] at hrun; cases hrun
      | ok es1 =>
        rw [hsa] at hrun
        injection hrun with hrun
        obtain ⟨-, hshape⟩ := set_active_ok_shape entries es1 d salt hsa
        subst hshape
        subst hrun
        obtain ⟨hdmem, hdc⟩ := firstOther_some _ _ _ hfo
        obtain ⟨e, he, h1, h2, h3, h4⟩ := (mem_deployedChecksums _ _).mp hdmem
        have hdactive : d ≠ "active" := by
          intro hda
          rw [h4, hda] at h3
          exact absurd h3 (by decide)
        have hread : xdg_app_dir_read_active
            ((entries.filter (fun e => e.name != "active")
               ++ [DirEnt.mk "active" FType.symlink d]).filter
              (fun e => e.name != c)) = some d := by
          rw [List.filter_append]
          have hkeep : ([DirEnt.mk "active" FType.symlink d].filter
              (fun e => e.name != c)) = [DirEnt.mk "active" FType.symlink d] := by
            simp [Ne.symm hc]
          rw [hkeep]
          apply read_active_append_link
          intro x hx
          have hx1 := List.mem_of_mem_filter hx
          have := List.of_mem_filter hx1
          simpa using this
        have hmem' : d ∈ deployedChecksums
            ((entries.filter (fun e => e.name != "active")
               ++ [DirEnt.mk "active" FType.symlink d]).filter
              (fun e => e.name != c)) := by
          apply (mem_deployedChecksums _ _).mpr
          refine ⟨e, ?_, h1, h2, h3, h4⟩
          rw [List.mem_filter, List.mem_append]
          refine ⟨Or.inl ?_, ?_⟩
          · rw [List.mem_filter]
            refine ⟨he, ?_⟩
            simp [h4, hdactive]
          · simp [h4, hdc]
        exact ⟨fun _ => ⟨d, hread, hdc, hmem'⟩,
               fun hnil => absurd (hnil ▸ hmem') (List.not_mem_nil d)⟩
    | none =>
      rw [hfo] at hrun
      simp only [xdg_app_dir_set_active] at hrun
      injection hrun with hrun
      subst hrun
      have hnone : xdg_app_dir_read_active
          ((entries.filter (fun e => e.name != "active")).filter
            (fun e => e.name != c)) = none := by
        unfold xdg_app_dir_read_active
        rw [find_active_none]
        intro x hx
        have hx1 := List.mem_of_mem_filter hx
        have := List.of_mem_filter hx1
        simpa using this
      have hempty : deployedChecksums
          ((entries.filter (fun e => e.name != "active")).filter
            (fun e => e.name != c)) = [] := by
        rw [List.eq_nil_iff_forall_not_mem]
        intro x hx
        obtain ⟨e, he, h1, h2, h3, h4⟩ := (mem_deployedChecksums _ _).mp hx
        have hxc : e.name ≠ c := by
          have := List.of_mem_filter he
          simpa using this
        have he2 : e ∈ entries := List.mem_of_mem_filter (List.mem_of_mem_filter he)
        have hxd : x ∈ deployedChecksums entries :=
          (mem_deployedChecksums _ _).mpr ⟨e, he2, h1, h2, h3, h4⟩
        exact hxc (h4.symm ▸ firstOther_none _ _ hfo x hxd)
      exact ⟨fun hne => absurd hempty hne, fun _ => hnone⟩
  · rw [if_pos hex] at hrun
    cases hrun

/-- Witness for C1: two deployed checksums, `active` targets the first;
undeploying it repoints `active` to the second. -/
theorem claim_C1_witness :
    (deployedChecksums
        [DirEnt.mk (String.mk (List.replicate 64 'b')) FType.dir "",
         DirEnt.mk "active" FType.symlink (String.mk (List.replicate 64 'b'))] ≠ [] →
       ∃ d, xdg_app_dir_read_active
           [DirEnt.mk (String.mk (List.replicate 64 'b')) FType.dir "",
            DirEnt.mk "active" FType.symlink (String.mk (List.replicate 64 'b'))]
           = some d ∧
         d ≠ String.mk (List.replicate 64 'a') ∧
         d ∈ deployedChecksums
           [DirEnt.mk (String.mk (List.replicate 64 'b')) FType.dir "",
            DirEnt.mk "active" FType.symlink (String.mk (List.replicate 64 'b'))]) ∧
    (deployedChecksums
        [DirEnt.mk (String.mk (List.replicate 64 'b')) FType.dir "",
         DirEnt.mk "active" FType.symlink (String.mk (List.replicate 64 'b'))] = [] →
       xdg_app_dir_read_active
           [DirEnt.mk (String.mk (List.replicate 64 'b')) FType.dir "",
            DirEnt.mk "active" FType.symlink (String.mk (List.replicate 64 'b'))]
         = none) :=
  claim_C1
    [DirEnt.mk (String.mk (List.replicate 64 'a')) FType.dir "",
     DirEnt.mk (String.mk (List.replicate 64 'b')) FType.dir "",
     DirEnt.mk "active" FType.symlink (String.mk (List.replicate 64 'a'))]
    _ (String.mk (List.replicate 64 'a')) false "s1"
    (by decide) (by decide) (by decide)

/-! Key files.  The C code manipulates GKeyFile documents; we embed a
key file as its list of groups, each group carrying its list of
key/value entries. -/

/-- A GKeyFile document: groups in order, each with its entries. -/
abbrev KeyFile := List (String × List (String × String))

/-- `g_key_file_get_string` within one group: the value of the first
entry with the given key. -/
def kf_get : List (String × String) → String → Option String
  | [], _ => none
  | (k', v') :: rest, k => if k' = k then some v' else kf_get rest k

/-- `g_key_file_remove_key`: drop the key's entries from the group
(a missing key is ignored, as the code passes a NULL error). -/
def kf_remove (es : List (String × String)) (k : String) : List (String × String) :=
  es.filter (fun p => p.1 != k)

/-- `g_key_file_set_string`: replace the value of an existing key or
append the key at the end of the group. -/
def kf_set : List (String × String) → String → String → List (String × String)
  | [], k, v => [(k, v)]
  | (k', v') :: rest, k, v =>
    if k' = k then (k, v) :: rest else (k', v') :: kf_set rest k v

/-- `g_key_file_get_string (keyfile, group, key)`: look up the group,
then the key inside it. -/
def kf_get_string (kf : KeyFile) (group key : String) : Option String :=
  match kf.find? (fun g => g.1 == group) with
  | none => none
  | some g => kf_get g.2 key

/-- `g_key_file_get_boolean`: a missing group or key, or an unparsable
value, reports an error and returns FALSE; the values `true` and `1`
parse as TRUE. -/
def g_key_file_get_boolean (kf : KeyFile) (group key : String) : Bool :=
  match kf_get_string kf group key with
  | none => false
  | some v => v == "true" || v == "1"

/-- `get_group`: the repository-config group name of a remote. -/
def get_group (remote_name : String) : String :=
  "remote \"" ++ remote_name ++ "\""

/-- `xdg_app_dir_get_remote_noenumerate`: consult the repo config when
there is one, else TRUE.  The repo config is `none` when
`ostree_repo_get_config` returns NULL. -/
def xdg_app_dir_get_remote_noenumerate (config : Option KeyFile)
    (remote_name : String) : Bool :=
  match config with
  | some cfg => g_key_file_get_boolean cfg (get_group remote_name) "xa.noenumerate"
  | none => true

/-- Counterexample to C7: a repository config whose remote group lacks
`xa.noenumerate` makes the query return FALSE, not TRUE —
`g_key_file_get_boolean` returns FALSE on a missing key. -/
theorem claim_C7_counterexample :
    xdg_app_dir_get_remote_noenumerate
        (some [(get_group "r1", [("xa.title", "Test Repo")])]) "r1" = false := by
  decide

/-- C7 as amended: the query defaults to TRUE only when the repository
config is entirely unavailable; when a config is present but the
`xa.noenumerate` key is absent from the remote's group, the GKeyFile
boolean lookup fails and the query returns FALSE. -/
theorem claim_C7_amended (cfg : KeyFile) (remote_name : String)
    (hmiss : kf_get_string cfg (get_group remote_name) "xa.noenumerate" = none) :
    xdg_app_dir_get_remote_noenumerate none remote_name = true ∧
    xdg_app_dir_get_remote_noenumerate (some cfg) remote_name = false := by
  refine ⟨rfl, ?_⟩
  show g_key_file_get_boolean cfg (get_group remote_name) "xa.noenumerate" = false
  unfold g_key_file_get_boolean
  rw [hmiss]

/-- Witness for the amended C7 at a concrete config lacking the key. -/
theorem claim_C7_amended_witness :
    xdg_app_dir_get_remote_noenumerate none "r1" = true ∧
    xdg_app_dir_get_remote_noenumerate
        (some [(get_group "r1", [("xa.title", "Test Repo")])]) "r1" = false :=
  claim_C7_amended [(get_group "r1", [("xa.title", "Test Repo")])] "r1" (by decide)

/-! The launcher rewriter: `need_quotes`, `maybe_quote` and the `Exec`
rewriting of `export_desktop_file`.  `g_shell_parse_argv` is external
(GLib); the embedded functions take the tokenizer as a parameter `sp`,
where `none` stands for a parse failure. -/

/-- `g_ascii_isalnum`: ASCII letters and digits. -/
def g_ascii_isalnum (c : Char) : Bool :=
  decide (('a' ≤ c ∧ c ≤ 'z') ∨ ('A' ≤ c ∧ c ≤ 'Z') ∨ ('0' ≤ c ∧ c ≤ '9'))

/-- The characters of the C literal `"-_%.=:/@"` that `need_quotes`
probes with `strchr`. -/
def strchr_set : List Char := ['-', '_', '%', '.', '=', ':', '/', '@']

/-- `need_quotes`: true when some character is neither ASCII
alphanumeric nor found by `strchr` in `"-_%.=:/@"`. -/
def need_quotes (s : String) : Bool :=
  s.data.any (fun c => !(g_ascii_isalnum c || decide (c ∈ strchr_set)))

/-- `g_str_has_suffix`, embedded on the character lists. -/
def g_str_has_suffix (str suffix : String) : Bool :=
  List.isSuffixOf suffix.data str.data

/-- `g_shell_quote`: wrap in single quotes, turning each embedded
single quote into `'\''`. -/
def g_shell_quote (s : String) : String :=
  String.mk ('\'' :: (s.data.flatMap
    (fun c => if c = '\'' then ['\'', '\\', '\'', '\''] else [c]) ++ ['\'']))

/-- `maybe_quote`: shell-quote only when `need_quotes` holds. -/
def maybe_quote (s : String) : String :=
  if need_quotes s then g_shell_quote s else s

/-- The `Exec` value assembled by `export_desktop_file` for one group:
the launcher invocation, then `--command=<argv0>` plus the app name and
the remaining arguments when the original `Exec` tokenized into at
least one token, else just the app name. -/
def new_exec_string (bindir app branch arch : String)
    (parsed : Option (List String)) : String :=
  let base := bindir ++ "/xdg-app run --branch=" ++ maybe_quote branch
      ++ " --arch=" ++ maybe_quote arch
  match parsed with
  | some (cmd0 :: rest) =>
    base ++ " --command=" ++ maybe_quote cmd0 ++ " " ++ maybe_quote app
      ++ String.join (rest.map (fun a => " " ++ maybe_quote a))
  | _ => base ++ " " ++ maybe_quote app

/-- The per-group transformation of `export_desktop_file`: remove
`TryExec` and `X-GNOME-Bugzilla-ExtraInfoScript`, then set `Exec` to
the rewritten launcher invocation. -/
def export_group (sp : String → Option (List String))
    (bindir app branch arch : String)
    (es : List (String × String)) : List (String × String) :=
  let es1 := kf_remove es "TryExec"
  let es2 := kf_remove es1 "X-GNOME-Bugzilla-ExtraInfoScript"
  kf_set es2 "Exec"
    (new_exec_string bindir app branch arch ((kf_get es2 "Exec").bind sp))

/-- Rewrite errors of the launcher rewriter. -/
inductive RwErr where
  | wrongName
  | openFailed
  deriving DecidableEq

/-- The expected D-Bus name `g_strndup (name, strlen (name) - strlen
(".service"))`: the file name without its 8-byte `.service` suffix. -/
def drop_service_suffix (name : String) : String :=
  String.mk (name.data.take (name.data.length - (".service" : String).data.length))

/-- `export_desktop_file` at the key-file level: for a `.service` file
first check that `Name` under `[D-BUS Service]` equals the file name
without the `.service` suffix (missing or different is fatal), then
rewrite every group. -/
def export_desktop_file_kf (sp : String → Option (List String))
    (bindir app branch arch name : String) (kf : KeyFile) :
    Except RwErr KeyFile :=
  if g_str_has_suffix name ".service" then
    match kf_get_string kf "D-BUS Service" "Name" with
    | none => Except.error RwErr.wrongName
    | some dbus_name =>
      if dbus_name = drop_service_suffix name then
        Except.ok (kf.map (fun g => (g.1, export_group sp bindir app branch arch g.2)))
      else Except.error RwErr.wrongName
  else
    Except.ok (kf.map (fun g => (g.1, export_group sp bindir app branch arch g.2)))

/-! Spec-side definitions for C3, written from the specification's
wording: token substitution quotes exactly when a character outside
`[A-Za-z0-9_\-.%=:/@]` occurs, and the rewritten `Exec` is
`<launcher-path> run --branch=<branch> --arch=<arch> [--command=<cmd0>]
<app> <args…>`. -/

/-- The character class `[A-Za-z0-9_\-.%=:/@]` of the specification. -/
def spec_allowed_char (c : Char) : Bool :=
  decide (('A' ≤ c ∧ c ≤ 'Z') ∨ ('a' ≤ c ∧ c ≤ 'z') ∨ ('0' ≤ c ∧ c ≤ '9') ∨
    c ∈ ['_', '-', '.', '%', '=', ':', '/', '@'])

/-- Spec-side token substitution: shell-quoted iff some character falls
outside the allowed class, otherwise inserted verbatim. -/
def spec_token_sub (s : String) : String :=
  if s.data.any (fun c => !spec_allowed_char c) then g_shell_quote s else s

/-- Spec-side `Exec` value: launcher path, `run`, branch and arch
options, `--command=<cmd0>` exactly when tokenization produced at least
one token, the app name, then the remaining tokens. -/
def spec_exec_value (launcher app branch arch : String)
    (tokens : Option (List String)) : String :=
  let base := launcher ++ " run --branch=" ++ spec_token_sub branch
      ++ " --arch=" ++ spec_token_sub arch
  match tokens with
  | some (cmd0 :: rest) =>
    base ++ " --command=" ++ spec_token_sub cmd0 ++ " " ++ spec_token_sub app
      ++ String.join (rest.map (fun a => " " ++ spec_token_sub a))
  | _ => base ++ " " ++ spec_token_sub app

theorem char_class_eq (c : Char) :
    (g_ascii_isalnum c || decide (c ∈ strchr_set)) = spec_allowed_char c := by
  rw [Bool.eq_iff_iff]
  unfold g_ascii_isalnum spec_allowed_char strchr_set
  simp only [Bool.or_eq_true, decide_eq_true_eq, List.mem_cons,
    List.mem_singleton, List.not_mem_nil, or_false]
  tauto

theorem need_quotes_eq_spec (s : String) :
    need_quotes s = s.data.any (fun c => !spec_allowed_char c) := by
  unfold need_quotes
  simp only [char_class_eq]

theorem maybe_quote_eq_spec (s : String) : maybe_quote s = spec_token_sub s := by
  unfold maybe_quote spec_token_sub
  rw [need_quotes_eq_spec]

theorem new_exec_eq_spec (bindir app branch arch : String)
    (parsed : Option (List String)) :
    new_exec_string bindir app branch arch parsed =
      spec_exec_value (bindir ++ "/xdg-app") app branch arch parsed := by
  unfold new_exec_string spec_exec_value
  have hbase : bindir ++ "/xdg-app run --branch=" =
      (bindir ++ "/xdg-app") ++ " run --branch=" := by
    rw [String.append_assoc]
    rfl
  simp only [maybe_quote_eq_spec, hbase]

theorem kf_get_set (es : List (String × String)) (k v : String) :
    kf_get (kf_set es k v) k = some v := by
  induction es with
  | nil => simp [kf_set, kf_get]
  | cons p rest ih =>
    rw [kf_set]
    by_cases hp : p.1 = k
    · rw [if_pos hp, kf_get, if_pos rfl]
    · rw [if_neg hp, kf_get, if_neg hp]
      exact ih

theorem kf_get_remove_ne (es : List (String × String)) (k k2 : String)
    (h : k2 ≠ k) : kf_get (kf_remove es k2) k = kf_get es k := by
  induction es with
  | nil => rfl
  | cons p rest ih =>
    obtain ⟨pk, pv⟩ := p
    rw [kf_remove, List.filter_cons]
    by_cases hp : pk = k2
    · have hb : ((pk, pv).1 != k2) = false := by simp [hp]
      rw [hb]
      simp only [Bool.false_eq_true, if_false]
      have hpk : pk ≠ k := by rw [hp]; exact h
      rw [show kf_get ((pk, pv) :: rest) k = kf_get rest k from by
        rw [kf_get, if_neg hpk]]
      exact ih
    · have hb : ((pk, pv).1 != k2) = true := by simp [hp]
      rw [hb, if_pos rfl, kf_get, kf_get]
      by_cases hpk : pk = k
      · rw [if_pos hpk, if_pos hpk]
      · rw [if_neg hpk, if_neg hpk]
        exact ih

theorem kf_get_export_group (sp : String → Option (List String))
    (bindir app branch arch : String) (es : List (String × String)) :
    kf_get (export_group sp bindir app branch arch es) "Exec" =
      some (new_exec_string bindir app branch arch ((kf_get es "Exec").bind sp)) := by
  unfold export_group
  rw [kf_get_set]
  rw [kf_get_remove_ne _ _ _ (by decide), kf_get_remove_ne _ _ _ (by decide)]

/-- C3: on every rewritten `.desktop`/`.service` key file, each group's
`Exec` value is exactly the spec's launcher invocation: launcher path,
`run --branch=<branch> --arch=<arch>`, then `--command=<cmd0>` exactly
when shell-tokenizing the group's original `Exec` succeeded with at
least one token, then the app name and the remaining tokens in order,
each substituted token shell-quoted iff it contains a character outside
`[A-Za-z0-9_\-.%=:/@]`. -/
theorem claim_C3 (sp : String → Option (List String))
    (bindir app branch arch name : String) (kf kf' : KeyFile)
    (h : export_desktop_file_kf sp bindir app branch arch name kf = Except.ok kf') :
    List.Forall₂ (fun gin gout =>
      gout.1 = gin.1 ∧
      kf_get gout.2 "Exec" =
        some (spec_exec_value (bindir ++ "/xdg-app") app branch arch
          ((kf_get gin.2 "Exec").bind sp))) kf kf' := by
  have hmap : kf' = kf.map (fun g => (g.1, export_group sp bindir app branch arch g.2)) := by
    unfold export_desktop_file_kf at h
    split at h
    · split at h
      · cases h
      · split at h
        · injection h with h
          exact h.symm
        · cases h
    · injection h with h
      exact h.symm
  subst hmap
  clear h
  induction kf with
  | nil => exact List.Forall₂.nil
  | cons g rest ih =>
    refine List.Forall₂.cons ⟨rfl, ?_⟩ ih
    rw [kf_get_export_group, new_exec_eq_spec]

/-- Witness for C3: a concrete desktop file with `Exec=gedit %U` is
rewritten to the launcher invocation. -/
theorem claim_C3_witness :
    List.Forall₂ (fun gin gout =>
      gout.1 = gin.1 ∧
      kf_get gout.2 "Exec" =
        some (spec_exec_value ("/usr/bin" ++ "/xdg-app") "org.gnome.gedit"
          "master" "x86_64" ((kf_get gin.2 "Exec").bind
            (fun _ => some ["gedit", "%U"]))))
      [("Desktop Entry", [("Name", "gedit"), ("TryExec", "gedit"),
          ("Exec", "gedit %U")])]
      [("Desktop Entry", [("Name", "gedit"),
          ("Exec", "/usr/bin/xdg-app run --branch=master --arch=x86_64 --command=gedit org.gnome.gedit %U")])] :=
  claim_C3 (fun _ => some ["gedit", "%U"]) "/usr/bin" "org.gnome.gedit"
    "master" "x86_64" "org.gnome.gedit.desktop" _ _ (by decide)

/-! The export-subtree walk of `rewrite_export_dir` and the deploy tail
that runs it before `set_active`. -/

/-- Modelled from the spec: `xdg_app_has_name_prefix` lives in
`xdg-app-utils.c`, which is not among the provided sources; the spec
only demands that export files be namespaced, i.e. "prefixed with
`<app-name>`". -/
def xdg_app_name_prefixed (str app : String) : Bool :=
  List.isPrefixOf app.data str.data

/-- A node of the export subtree: a directory with named children, a
regular file whose content parses as a key file, or a file of any
other type. -/
inductive ENode where
  | dir (children : List (String × ENode))
  | file (kf : KeyFile)
  | other

/-- `rewrite_export_dir`: walk the listing in order.  Directories
recurse.  A regular file without the app-name prefix is deleted with a
warning — and, since the source then still enters the
`.desktop`/`.service` branch, reopening the just-unlinked file fails
and aborts the walk.  A prefixed `.desktop`/`.service` file is
transformed in place (temp file renamed over the original); other
regular files are kept; files of other types are deleted with a
warning. -/
def rewriteExportDir (sp : String → Option (List String))
    (bindir app branch arch : String) :
    List (String × ENode) → Except RwErr (List (String × ENode))
  | [] => Except.ok []
  | (name, ENode.dir ch) :: rest =>
    match rewriteExportDir sp bindir app branch arch ch with
    | Except.error e => Except.error e
    | Except.ok ch' =>
      match rewriteExportDir sp bindir app branch arch rest with
      | Except.error e => Except.error e
      | Except.ok rest' => Except.ok ((name, ENode.dir ch') :: rest')
  | (name, ENode.file kf) :: rest =>
    if ¬ xdg_app_name_prefixed name app then
      if g_str_has_suffix name ".desktop" || g_str_has_suffix name ".service" then
        Except.error RwErr.openFailed
      else
        rewriteExportDir sp bindir app branch arch rest
    else if g_str_has_suffix name ".desktop" || g_str_has_suffix name ".service" then
      match export_desktop_file_kf sp bindir app branch arch name kf with
      | Except.error e => Except.error e
      | Except.ok kf' =>
        match rewriteExportDir sp bindir app branch arch rest with
        | Except.error e => Except.error e
        | Except.ok rest' => Except.ok ((name, ENode.file kf') :: rest')
    else
      match rewriteExportDir sp bindir app branch arch rest with
      | Except.error e => Except.error e
      | Except.ok rest' => Except.ok ((name, ENode.file kf) :: rest')
  | (_, ENode.other) :: rest =>
    rewriteExportDir sp bindir app branch arch rest

/-- A `.service` file whose `[D-BUS Service] Name` is missing or
differs from the file name without its suffix. -/
def badService (name : String) (kf : KeyFile) : Bool :=
  g_str_has_suffix name ".service" &&
    (match kf_get_string kf "D-BUS Service" "Name" with
     | none => true
     | some dn => decide (dn ≠ drop_service_suffix name))

/-- Some regular file in the subtree is a bad `.service` file. -/
def containsBadService : List (String × ENode) → Bool
  | [] => false
  | (_, ENode.dir ch) :: rest => containsBadService ch || containsBadService rest
  | (name, ENode.file kf) :: rest => badService name kf || containsBadService rest
  | (_, ENode.other) :: rest => containsBadService rest

/-- Whether an `Except` is an error. -/
def isErr {ε α : Type} : Except ε α → Bool
  | Except.error _ => true
  | Except.ok _ => false

theorem rewrite_error_of_bad (sp : String → Option (List String))
    (bindir app branch arch : String) :
    ∀ l : List (String × ENode), containsBadService l = true →
      isErr (rewriteExportDir sp bindir app branch arch l) = true
  | [], h => by simp [containsBadService] at h
  | (name, ENode.dir ch) :: rest, h => by
    rw [containsBadService, Bool.or_eq_true] at h
    rcases h with hch | hrest
    · have := rewrite_error_of_bad sp bindir app branch arch ch hch
      cases hch' : rewriteExportDir sp bindir app branch arch ch with
      | error e => simp [rewriteExportDir, hch', isErr]
      | ok ch' => rw [hch'] at this; simp [isErr] at this
    · cases hch' : rewriteExportDir sp bindir app branch arch ch with
      | error e => simp [rewriteExportDir, hch', isErr]
      | ok ch' =>
        have := rewrite_error_of_bad sp bindir app branch arch rest hrest
        cases hre : rewriteExportDir sp bindir app branch arch rest with
        | error e => simp [rewriteExportDir, hch', hre, isErr]
        | ok rest' => rw [hre] at this; simp [isErr] at this
  | (name, ENode.file kf) :: rest, h => by
    rw [containsBadService, Bool.or_eq_true] at h
    rcases h with hbs | hrest
    · rw [badService, Bool.and_eq_true] at hbs
      obtain ⟨hsuf, hname⟩ := hbs
      have hexp : export_desktop_file_kf sp bindir app branch arch name kf =
          Except.error RwErr.wrongName := by
        unfold export_desktop_file_kf
        rw [if_pos hsuf]
        cases hg : kf_get_string kf "D-BUS Service" "Name" with
        | none => rfl
        | some dn =>
          rw [hg] at hname
          simp only [decide_eq_true_eq] at hname
          exact if_neg hname
      by_cases hp : xdg_app_name_prefixed name app = true
      · have hsuf2 : (g_str_has_suffix name ".desktop" ||
            g_str_has_suffix name ".service") = true := by
          rw [Bool.or_eq_true]; exact Or.inr hsuf
        simp [rewriteExportDir, hp, hsuf2, hexp, isErr]
      · have hsuf2 : (g_str_has_suffix name ".desktop" ||
            g_str_has_suffix name ".service") = true := by
          rw [Bool.or_eq_true]; exact Or.inr hsuf
        simp [rewriteExportDir, hp, hsuf2, isErr]
    · have hr := rewrite_error_of_bad sp bindir app branch arch rest hrest
      cases hre : rewriteExportDir sp bindir app branch arch rest with
      | error e =>
        by_cases hp : xdg_app_name_prefixed name app = true
        · by_cases hsuf : (g_str_has_suffix name ".desktop" ||
              g_str_has_suffix name ".service") = true
          · cases hexp : export_desktop_file_kf sp bindir app branch arch name kf with
            | error e2 => simp [rewriteExportDir, hp, hsuf, hexp, isErr]
            | ok kf' => simp [rewriteExportDir, hp, hsuf, hexp, hre, isErr]
          · simp [rewriteExportDir, hp, hsuf, hre, isErr]
        · by_cases hsuf : (g_str_has_suffix name ".desktop" ||
              g_str_has_suffix name ".service") = true
          · simp [rewriteExportDir, hp, hsuf, isErr]
          · simp [rewriteExportDir, hp, hsuf, hre, isErr]
      | ok rest' => rw [hre] at hr; simp [isErr] at hr
  | (name, ENode.other) :: rest, h => by
    rw [containsBadService] at h
    have hr := rewrite_error_of_bad sp bindir app branch arch rest h
    simpa [rewriteExportDir] using hr

theorem read_active_append_dir (l : List DirEnt) (n t : String) :
    xdg_app_dir_read_active (l ++ [DirEnt.mk n FType.dir t]) =
      xdg_app_dir_read_active l := by
  unfold xdg_app_dir_read_active
  rw [List.find?_append]
  cases hf : l.find? (fun e => e.name == "active") with
  | some e => rfl
  | none =>
    simp only [Option.orElse_none, Option.none_orElse]
    cases hn : ((DirEnt.mk n FType.dir t).name == "active") with
    | true => simp [List.find?, hn]
    | false => simp [List.find?, hn]

/-- The `xdg_app_dir_deploy` tail, from the `ALREADY_DEPLOYED` check
on.  The preceding repo/resolve/pull steps concern the external object
store; a successful `ostree_repo_checkout_tree` materializes the
checkout as a new `<checksum>` directory in the deploy base.  When the
checkout has an `export/` subtree the launcher rewriter runs over it,
and only afterwards `active` is repointed; any failure before that
leaves the deploy base's `active` untouched.  Returns the error (if
any) together with the resulting deploy-base listing. -/
def xdg_app_dir_deploy (sp : String → Option (List String))
    (bindir app branch arch : String) (entries : List DirEnt)
    (checksum : String) (exportTree : Option (List (String × ENode)))
    (salt : String) : Option DirErr × List DirEnt :=
  if entries.any (fun e => e.name == checksum) then
    (some DirErr.alreadyDeployed, entries)
  else
    let entries1 := entries ++ [DirEnt.mk checksum FType.dir ""]
    match exportTree with
    | some ex =>
      match rewriteExportDir sp bindir app branch arch ex with
      | Except.error _ => (some DirErr.rewriteFailed, entries1)
      | Except.ok _ =>
        match xdg_app_dir_set_active entries1 (some checksum) salt with
        | Except.error e => (some e, entries1)
        | Except.ok es2 => (none, es2)
    | none =>
      match xdg_app_dir_set_active entries1 (some checksum) salt with
      | Except.error e => (some e, entries1)
      | Except.ok es2 => (none, es2)

/-- C4: deploying a checkout whose export subtree contains a
`.service` file with a missing or mismatched `[D-BUS Service] Name`
fails with an error, and the ref's `active` symlink is not updated
(`set_active` is never reached). -/
theorem claim_C4 (sp : String → Option (List String))
    (bindir app branch arch : String) (entries : List DirEnt)
    (checksum salt : String) (ex : List (String × ENode))
    (hbad : containsBadService ex = true) :
    (xdg_app_dir_deploy sp bindir app branch arch entries checksum
        (some ex) salt).1.isSome = true ∧
    xdg_app_dir_read_active
        (xdg_app_dir_deploy sp bindir app branch arch entries checksum
          (some ex) salt).2
      = xdg_app_dir_read_active entries := by
  by_cases hex : entries.any (fun e => e.name == checksum) = true
  · constructor
    · simp [xdg_app_dir_deploy, hex]
    · simp [xdg_app_dir_deploy, hex]
  · have hre := rewrite_error_of_bad sp bindir app branch arch ex hbad
    cases hrw : rewriteExportDir sp bindir app branch arch ex with
    | ok ex' => rw [hrw] at hre; simp [isErr] at hre
    | error e =>
      constructor
      · simp [xdg_app_dir_deploy, hex, hrw]
      · simp only [xdg_app_dir_deploy, hex, Bool.false_eq_true, if_false, hrw]
        exact read_active_append_dir entries checksum ""

/-- Witness for C4: a concrete export with
`com.example.App.service` carrying `Name=com.example.Other`. -/
theorem claim_C4_witness :
    (xdg_app_dir_deploy (fun _ => none) "/usr/bin" "com.example.App" "stable"
        "x86_64" [] "c1" (some [("com.example.App.service",
          ENode.file [("D-BUS Service", [("Name", "com.example.Other")])])])
        "s1").1.isSome = true ∧
    xdg_app_dir_read_active
        (xdg_app_dir_deploy (fun _ => none) "/usr/bin" "com.example.App" "stable"
          "x86_64" [] "c1" (some [("com.example.App.service",
            ENode.file [("D-BUS Service", [("Name", "com.example.Other")])])])
          "s1").2
      = xdg_app_dir_read_active [] :=
  claim_C4 (fun _ => none) "/usr/bin" "com.example.App" "stable" "x86_64"
    [] "c1" "s1"
    [("com.example.App.service",
      ENode.file [("D-BUS Service", [("Name", "com.example.Other")])])]
    (by simp only [containsBadService, Bool.or_eq_true]
        exact Or.inl (by decide))

/-- C5 (code bug): a regular file that is not prefixed with the app
name but ends in `.desktop` is deleted and then reopened by the
`.desktop`/`.service` branch — the missing `continue` makes the whole
rewrite fail instead of carrying on.  For a non-prefixed file without
those suffixes the walk does continue as the claim describes. -/
theorem claim_C5_bug :
    rewriteExportDir (fun _ => none) "/usr/bin" "org.test.App" "master" "x86_64"
        [("foo.desktop", ENode.file [])]
      = Except.error RwErr.openFailed ∧
    rewriteExportDir (fun _ => none) "/usr/bin" "org.test.App" "master" "x86_64"
        [("foo.png", ENode.file [])]
      = Except.ok [] := by
  have hno : xdg_app_name_prefixed "foo.desktop" "org.test.App" = false := by decide
  have hsuf : (g_str_has_suffix "foo.desktop" ".desktop" ||
      g_str_has_suffix "foo.desktop" ".service") = true := by decide
  have hno2 : xdg_app_name_prefixed "foo.png" "org.test.App" = false := by decide
  have hsuf2 : (g_str_has_suffix "foo.png" ".desktop" ||
      g_str_has_suffix "foo.png" ".service") = false := by decide
  constructor
  · simp [rewriteExportDir, hno, hsuf]
  · simp [rewriteExportDir, hno2, hsuf2]

/-! Ref listings: `xdg_app_dir_list_refs_for_name` and
`xdg_app_dir_list_refs`.  The fixed three-level hierarchy
`<kind>/<name>/<arch>/<branch>` is embedded as nested listings carrying
each entry's name and whether it is a directory. -/

/-- A branch-level child: name and directory flag. -/
abbrev BranchEnt := String × Bool

/-- An arch-level child: name, directory flag, and its children. -/
abbrev ArchEnt := String × Bool × List BranchEnt

/-- A name-level child of `<base>/<kind>/`. -/
abbrev NameEnt := String × Bool × List ArchEnt

/-- The `g_strdup_printf ("%s/%s/%s/%s", …)` ref string. -/
def mkRef (kind name arch branch : String) : String :=
  kind ++ "/" ++ name ++ "/" ++ arch ++ "/" ++ branch

/-- The inner loop of `xdg_app_dir_list_refs_for_name`: one ref per
branch-level directory child. -/
def branchRefs (kind name arch : String) : List BranchEnt → List String
  | [] => []
  | (bname, bdir) :: rest =>
    if bdir then mkRef kind name arch bname :: branchRefs kind name arch rest
    else branchRefs kind name arch rest

/-- The outer loop of `xdg_app_dir_list_refs_for_name`: arch-level
children that are not directories, or are literally named `data`, are
skipped silently. -/
def refsForNameCollect (kind name : String) : List ArchEnt → List String
  | [] => []
  | (aname, adir, branches) :: rest =>
    if adir ∧ aname ≠ "data" then
      branchRefs kind name aname branches ++ refsForNameCollect kind name rest
    else refsForNameCollect kind name rest

/-- `xdg_app_dir_list_refs_for_name`: a missing `<kind>/<name>`
directory yields success with no refs; otherwise collect and sort with
`strcmp`. -/
def xdg_app_dir_list_refs_for_name (kind name : String)
    (dir : Option (List ArchEnt)) : List String :=
  match dir with
  | none => []
  | some arches =>
    List.insertionSort (fun a b => a ≤ b) (refsForNameCollect kind name arches)

/-- The loop of `xdg_app_dir_list_refs`: every name-level directory
child contributes its (sorted) per-name refs. -/
def namesCollect (kind : String) : List NameEnt → List String
  | [] => []
  | (nname, ndir, arches) :: rest =>
    if ndir then
      xdg_app_dir_list_refs_for_name kind nname (some arches)
        ++ namesCollect kind rest
    else namesCollect kind rest

/-- `xdg_app_dir_list_refs`: a missing `<base>/<kind>` yields success
with the empty list; otherwise the concatenation of the per-name refs,
sorted with `strcmp`. -/
def xdg_app_dir_list_refs (kind : String) (base : Option (List NameEnt)) :
    List String :=
  match base with
  | none => []
  | some names =>
    List.insertionSort (fun a b => a ≤ b) (namesCollect kind names)

/-- No `/` occurs in the string — true of any directory-entry name. -/
def noSlash (s : String) : Prop := '/' ∉ s.data

/-- Well-formedness of the listed tree: sibling names are distinct at
every level and contain no slash. -/
def RefsTreeWF (names : List NameEnt) : Prop :=
  (names.map (fun ne => ne.1)).Nodup ∧
  ∀ ne ∈ names, noSlash ne.1 ∧ (ne.2.2.map (fun ae => ae.1)).Nodup ∧
    ∀ ae ∈ ne.2.2, noSlash ae.1 ∧ (ae.2.2.map (fun be => be.1)).Nodup

theorem sep_split : ∀ (x y r1 r2 : List Char), '/' ∉ x → '/' ∉ y →
    x ++ '/' :: r1 = y ++ '/' :: r2 → x = y ∧ r1 = r2
  | [], [], r1, r2, _, _, h => by
    rw [List.nil_append, List.nil_append] at h
    injection h with _ h2
    exact ⟨rfl, h2⟩
  | [], b :: ys, r1, r2, hx, hy, h => by
    rw [List.nil_append, List.cons_append] at h
    injection h with h1 _
    have : '/' ∈ b :: ys := by rw [← h1]; exact List.mem_cons_self _ _
    exact absurd this hy
  | a :: xs, [], r1, r2, hx, hy, h => by
    rw [List.nil_append, List.cons_append] at h
    injection h with h1 _
    have : '/' ∈ a :: xs := by rw [h1]; exact List.mem_cons_self _ _
    exact absurd this hx
  | a :: xs, b :: ys, r1, r2, hx, hy, h => by
    rw [List.cons_append, List.cons_append] at h
    injection h with h1 h2
    obtain ⟨hxy, hr⟩ := sep_split xs ys r1 r2
      (fun hm => hx (List.mem_cons_of_mem a hm))
      (fun hm => hy (List.mem_cons_of_mem b hm)) h2
    exact ⟨by rw [h1, hxy], hr⟩

theorem mkRef_data (kind n a b : String) :
    (mkRef kind n a b).data =
      kind.data ++ '/' :: (n.data ++ '/' :: (a.data ++ '/' :: b.data)) := by
  have hslash : ("/" : String).data = ['/'] := by decide
  unfold mkRef
  simp [String.data_append, hslash, List.append_assoc]

theorem mkRef_inj_right (kind n a b b' : String)
    (h : mkRef kind n a b = mkRef kind n a b') : b = b' := by
  have hd := congrArg String.data h
  rw [mkRef_data, mkRef_data] at hd
  have h1 := List.append_cancel_left hd
  injection h1 with _ h2
  have h3 := List.append_cancel_left h2
  injection h3 with _ h4
  have h5 := List.append_cancel_left h4
  injection h5 with _ h6
  exact String.ext h6

theorem mkRef_inj (kind n a b n' a' b' : String)
    (hn : noSlash n) (hn' : noSlash n') (ha : noSlash a) (ha' : noSlash a')
    (h : mkRef kind n a b = mkRef kind n' a' b') :
    n = n' ∧ a = a' ∧ b = b' := by
  have hd := congrArg String.data h
  rw [mkRef_data, mkRef_data] at hd
  have h1 := List.append_cancel_left hd
  injection h1 with _ h2
  obtain ⟨hn2, h3⟩ := sep_split n.data n'.data _ _ hn hn' h2
  obtain ⟨ha2, h4⟩ := sep_split a.data a'.data _ _ ha ha' h3
  exact ⟨String.ext hn2, String.ext ha2, String.ext h4⟩

theorem mem_branchRefs : ∀ (bs : List BranchEnt) (kind name arch r : String),
    r ∈ branchRefs kind name arch bs →
      ∃ be ∈ bs, be.2 = true ∧ r = mkRef kind name arch be.1
  | [], _, _, _, _, h => by simp [branchRefs] at h
  | (bn, bd) :: rest, kind, name, arch, r, h => by
    rw [branchRefs] at h
    by_cases hbd : bd = true
    · subst hbd
      rw [if_pos rfl] at h
      rcases List.mem_cons.mp h with rfl | h'
      · exact ⟨(bn, true), List.mem_cons_self _ _, rfl, rfl⟩
      · obtain ⟨be, hbe, h1, h2⟩ := mem_branchRefs rest kind name arch r h'
        exact ⟨be, List.mem_cons_of_mem _ hbe, h1, h2⟩
    · rw [if_neg (by simpa using hbd)] at h
      obtain ⟨be, hbe, h1, h2⟩ := mem_branchRefs rest kind name arch r h
      exact ⟨be, List.mem_cons_of_mem _ hbe, h1, h2⟩

theorem branchRefs_nodup : ∀ (bs : List BranchEnt) (kind name arch : String),
    (bs.map (fun be => be.1)).Nodup → (branchRefs kind name arch bs).Nodup
  | [], _, _, _, _ => List.nodup_nil
  | (bn, bd) :: rest, kind, name, arch, h => by
    rw [List.map_cons, List.nodup_cons] at h
    rw [branchRefs]
    by_cases hbd : bd = true
    · rw [if_pos hbd, List.nodup_cons]
      constructor
      · intro hmem
        obtain ⟨be, hbe, -, h2⟩ := mem_branchRefs rest kind name arch _ hmem
        have : bn = be.1 := mkRef_inj_right kind name arch bn be.1 h2
        exact h.1 (this ▸ List.mem_map_of_mem (fun be => be.1) hbe)
      · exact branchRefs_nodup rest kind name arch h.2
    · rw [if_neg (by simpa using hbd)]
      exact branchRefs_nodup rest kind name arch h.2

theorem mem_refsForNameCollect : ∀ (arches : List ArchEnt)
    (kind name r : String),
    r ∈ refsForNameCollect kind name arches →
      ∃ ae ∈ arches, ae.2.1 = true ∧ ae.1 ≠ "data" ∧
        ∃ be ∈ ae.2.2, be.2 = true ∧ r = mkRef kind name ae.1 be.1
  | [], _, _, _, h => by simp [refsForNameCollect] at h
  | (an, ad, bs) :: rest, kind, name, r, h => by
    rw [refsForNameCollect] at h
    by_cases hc : ad = true ∧ an ≠ "data"
    · rw [if_pos hc] at h
      rcases List.mem_append.mp h with h' | h'
      · obtain ⟨be, hbe, h1, h2⟩ := mem_branchRefs bs kind name an r h'
        exact ⟨(an, ad, bs), List.mem_cons_self _ _, hc.1, hc.2, be, hbe, h1, h2⟩
      · obtain ⟨ae, hae, h1, h2, h3⟩ := mem_refsForNameCollect rest kind name r h'
        exact ⟨ae, List.mem_cons_of_mem _ hae, h1, h2, h3⟩
    · rw [if_neg hc] at h
      obtain ⟨ae, hae, h1, h2, h3⟩ := mem_refsForNameCollect rest kind name r h
      exact ⟨ae, List.mem_cons_of_mem _ hae, h1, h2, h3⟩

theorem refsForNameCollect_nodup : ∀ (arches : List ArchEnt)
    (kind name : String), noSlash name →
    (arches.map (fun ae => ae.1)).Nodup →
    (∀ ae ∈ arches, noSlash ae.1 ∧ (ae.2.2.map (fun be => be.1)).Nodup) →
    (refsForNameCollect kind name arches).Nodup
  | [], _, _, _, _, _ => List.nodup_nil
  | (an, ad, bs) :: rest, kind, name, hname, hnd, hsub => by
    rw [List.map_cons, List.nodup_cons] at hnd
    rw [refsForNameCollect]
    have hrest := refsForNameCollect_nodup rest kind name hname hnd.2
      (fun ae hae => hsub ae (List.mem_cons_of_mem _ hae))
    by_cases hc : ad = true ∧ an ≠ "data"
    · rw [if_pos hc]
      apply List.Nodup.append
      · exact branchRefs_nodup bs kind name an
          (hsub (an, ad, bs) (List.mem_cons_self _ _)).2
      · exact hrest
      · intro r hr1 hr2
        obtain ⟨be, -, -, h2⟩ := mem_branchRefs bs kind name an r hr1
        obtain ⟨ae, hae, -, -, be', -, -, h5⟩ :=
          mem_refsForNameCollect rest kind name r hr2
        have han : noSlash an := (hsub (an, ad, bs) (List.mem_cons_self _ _)).1
        have hae' : noSlash ae.1 := (hsub ae (List.mem_cons_of_mem _ hae)).1
        have := mkRef_inj kind name an be.1 name ae.1 be'.1
          hname hname han hae' (h2 ▸ h5 ▸ rfl)
        exact hnd.1 (this.2.1 ▸ List.mem_map_of_mem (fun ae => ae.1) hae)
    · rw [if_neg hc]
      exact hrest

theorem mem_namesCollect : ∀ (names : List NameEnt) (kind r : String),
    r ∈ namesCollect kind names →
      ∃ ne ∈ names, ne.2.1 = true ∧
        ∃ ae ∈ ne.2.2, ae.2.1 = true ∧ ae.1 ≠ "data" ∧
          ∃ be ∈ ae.2.2, be.2 = true ∧ r = mkRef kind ne.1 ae.1 be.1
  | [], _, _, h => by simp [namesCollect] at h
  | (nn, nd, arches) :: rest, kind, r, h => by
    rw [namesCollect] at h
    by_cases hnd : nd = true
    · rw [if_pos hnd] at h
      rcases List.mem_append.mp h with h' | h'
      · have h'' : r ∈ refsForNameCollect kind nn arches :=
          (List.Perm.mem_iff (List.perm_insertionSort _ _)).mp h'
        obtain ⟨ae, hae, h1, h2, h3⟩ := mem_refsForNameCollect arches kind nn r h''
        exact ⟨(nn, nd, arches), List.mem_cons_self _ _, hnd, ae, hae, h1, h2, h3⟩
      · obtain ⟨ne, hne, h1, h2⟩ := mem_namesCollect rest kind r h'
        exact ⟨ne, List.mem_cons_of_mem _ hne, h1, h2⟩
    · rw [if_neg hnd] at h
      obtain ⟨ne, hne, h1, h2⟩ := mem_namesCollect rest kind r h
      exact ⟨ne, List.mem_cons_of_mem _ hne, h1, h2⟩

theorem namesCollect_nodup : ∀ (names : List NameEnt) (kind : String),
    RefsTreeWF names → (namesCollect kind names).Nodup
  | [], _, _ => List.nodup_nil
  | (nn, nd, arches) :: rest, kind, hwf => by
    obtain ⟨hnd0, hsub⟩ := hwf
    rw [List.map_cons, List.nodup_cons] at hnd0
    have hwfrest : RefsTreeWF rest :=
      ⟨hnd0.2, fun ne hne => hsub ne (List.mem_cons_of_mem _ hne)⟩
    have hhead := hsub (nn, nd, arches) (List.mem_cons_self _ _)
    rw [namesCollect]
    by_cases hd : nd = true
    · rw [if_pos hd]
      apply List.Nodup.append
      · unfold xdg_app_dir_list_refs_for_name
        refine (List.Perm.nodup_iff (List.perm_insertionSort _ _)).mpr ?_
        exact refsForNameCollect_nodup arches kind nn hhead.1 hhead.2.1 hhead.2.2
      · exact namesCollect_nodup rest kind hwfrest
      · intro r hr1 hr2
        have hr1' : r ∈ refsForNameCollect kind nn arches :=
          (List.Perm.mem_iff (List.perm_insertionSort _ _)).mp hr1
        obtain ⟨ae, hae, -, -, be, -, -, h3⟩ :=
          mem_refsForNameCollect arches kind nn r hr1'
        obtain ⟨ne, hne, -, ae', hae', -, -, be', -, -, h6⟩ :=
          mem_namesCollect rest kind r hr2
        have hnn : noSlash nn := hhead.1
        have hne' := hsub ne (List.mem_cons_of_mem _ hne)
        have ha1 : noSlash ae.1 := (hhead.2.2 ae hae).1
        have ha2 : noSlash ae'.1 := (hne'.2.2 ae' hae').1
        have := mkRef_inj kind nn ae.1 be.1 ne.1 ae'.1 be'.1
          hnn hne'.1 ha1 ha2 (h3 ▸ h6 ▸ rfl)
        exact hnd0.1 (this.1 ▸ List.mem_map_of_mem (fun ne => ne.1) hne)
    · rw [if_neg hd]
      exact namesCollect_nodup rest kind hwfrest

/-- Counterexample to C6: a name-level child literally called `data`
(directly under `<base>/<kind>/`) is NOT skipped — `list-refs`
enumerates it like any other name, yielding the ref
`app/data/x86_64/master`.  The `data` skip happens one level lower. -/
theorem claim_C6_counterexample :
    xdg_app_dir_list_refs "app"
        (some [("data", true, [("x86_64", true, [("master", true)])])])
      = ["app/data/x86_64/master"] := by
  decide

/-- C6 as amended: `list-refs(kind)` is sorted lexicographically,
duplicate-free (for a well-formed listing), a missing `<base>/<kind>/`
root yields success with the empty list, and the child literally named
`data` that is skipped silently is the one directly under
`<base>/<kind>/<name>/` (the arch level), not the name level. -/
theorem claim_C6_amended (kind : String) :
    xdg_app_dir_list_refs kind none = [] ∧
    (∀ base, List.Sorted (fun a b => a ≤ b) (xdg_app_dir_list_refs kind base)) ∧
    (∀ names, RefsTreeWF names →
       (xdg_app_dir_list_refs kind (some names)).Nodup) ∧
    (∀ name bs arches,
       refsForNameCollect kind name (("data", true, bs) :: arches)
         = refsForNameCollect kind name arches) := by
  refine ⟨rfl, ?_, ?_, ?_⟩
  · intro base
    cases base with
    | none => exact List.sorted_nil
    | some names => exact List.sorted_insertionSort _ _
  · intro names hwf
    unfold xdg_app_dir_list_refs
    exact (List.Perm.nodup_iff (List.perm_insertionSort _ _)).mpr
      (namesCollect_nodup names kind hwf)
  · intro name bs arches
    rw [refsForNameCollect]
    rw [if_neg]
    intro hc
    exact hc.2 rfl

/-- Witness for the amended C6 at a concrete two-name tree containing
an arch-level `data` child. -/
theorem claim_C6_amended_witness :
    xdg_app_dir_list_refs "app" none = [] ∧
    List.Sorted (fun a b => a ≤ b)
      (xdg_app_dir_list_refs "app"
        (some [("org.b", true, [("x86_64", true, [("master", true)])]),
               ("org.a", true, [("arm", true, [("devel", true), ("stable", true)])])])) ∧
    (xdg_app_dir_list_refs "app"
        (some [("org.b", true, [("x86_64", true, [("master", true)])]),
               ("org.a", true, [("arm", true, [("devel", true), ("stable", true)])])])).Nodup ∧
    refsForNameCollect "app" "org.a"
        (("data", true, [("junk", true)]) :: [("arm", true, [("stable", true)])])
      = refsForNameCollect "app" "org.a" [("arm", true, [("stable", true)])] :=
  ⟨(claim_C6_amended "app").1,
   (claim_C6_amended "app").2.1 _,
   (claim_C6_amended "app").2.2.1 _ (by unfold RefsTreeWF noSlash; decide),
   (claim_C6_amended "app").2.2.2 "org.a" _ _⟩

/-! The `.filez` stage of `xdg_app_dir_fetch_metadata`: header-size
parsing, bounds check, and the raw-deflate remainder.  Bytes are
embedded as `Nat`s below 256; the zlib raw-deflate decompressor is
external and passed as the parameter `inflate`. -/

/-- Error kinds of the metadata fetch (`G_IO_ERROR_*`). -/
inductive FetchErr where
  | failed
  | notFound
  deriving DecidableEq

/-- `GUINT32_FROM_BE (*(guint32 *) filez_data)`: the first bytes read
as a big-endian 32-bit integer. -/
def be32 (bs : List Nat) : Nat :=
  bs.foldl (fun acc b => acc * 256 + b) 0

/-- The `.filez` handling of `xdg_app_dir_fetch_metadata`: fewer than 8
bytes is "Invalid header" (`FAILED`); `archive_header_size` is the
big-endian first word plus `4 + 4` in `guint32` arithmetic; a value
exceeding the payload size is `FAILED`; otherwise that many leading
bytes are skipped and the remainder is the raw-deflate input. -/
def xdg_app_dir_fetch_metadata_filez (filez : List Nat) :
    Except FetchErr (List Nat) :=
  if filez.length < 8 then Except.error FetchErr.failed
  else if (be32 (filez.take 4) + (4 + 4)) % 2 ^ 32 > filez.length then
    Except.error FetchErr.failed
  else Except.ok (filez.drop ((be32 (filez.take 4) + (4 + 4)) % 2 ^ 32))

/-- `xdg_app_dir_fetch_metadata`, from the fetched `.filez` bytes on:
the remainder after the header is decompressed (raw deflate) and the
decompressed bytes are returned. -/
def xdg_app_dir_fetch_metadata_result
    (inflate : List Nat → Except FetchErr (List Nat)) (filez : List Nat) :
    Except FetchErr (List Nat) :=
  match xdg_app_dir_fetch_metadata_filez filez with
  | Except.error e => Except.error e
  | Except.ok z => inflate z

/-- Counterexample to C8: with first word `0xFFFFFFFF` the computation
`archive_header_size += 4 + 4` wraps around in `guint32` arithmetic, so
although `4 + h + 4` exceeds the 8-byte payload, the fetch does not
fail: it skips `(4 + h + 4) mod 2^32 = 7` bytes and hands the last
byte to the decompressor. -/
theorem claim_C8_counterexample :
    4 + be32 (([255, 255, 255, 255, 0, 0, 0, 0] : List Nat).take 4) + 4
        > ([255, 255, 255, 255, 0, 0, 0, 0] : List Nat).length ∧
    xdg_app_dir_fetch_metadata_filez [255, 255, 255, 255, 0, 0, 0, 0]
      = Except.ok [0] := by
  constructor
  · decide
  · decide

/-- Spec-side `.filez` extraction following the amended wording: read
the big-endian header size `h` from the first 4 bytes, skip
`(4 + h + 4) mod 2^32` bytes, fail with `FAILED` on a payload shorter
than 8 bytes or when the (wrapped) skip count exceeds the payload
size, and return the remaining bytes for raw-deflate decompression. -/
def spec_filez_extract (filez : List Nat) : Except FetchErr (List Nat) :=
  if 8 ≤ filez.length then
    if (4 + be32 (filez.take 4) + 4) % 4294967296 ≤ filez.length then
      Except.ok (filez.drop ((4 + be32 (filez.take 4) + 4) % 4294967296))
    else Except.error FetchErr.failed
  else Except.error FetchErr.failed

/-- C8 as amended: the fetch skips `(4 + h + 4) mod 2^32` leading bytes
(the `guint32` sum wraps) and decompresses the remainder; a payload
shorter than 8 bytes, or one whose wrapped skip count exceeds the
payload size, fails with `FAILED`. -/
theorem claim_C8_amended (filez : List Nat)
    (inflate : List Nat → Except FetchErr (List Nat)) :
    xdg_app_dir_fetch_metadata_result inflate filez =
      (match spec_filez_extract filez with
       | Except.error e => Except.error e
       | Except.ok z => inflate z) := by
  have hcore : xdg_app_dir_fetch_metadata_filez filez = spec_filez_extract filez := by
    unfold xdg_app_dir_fetch_metadata_filez spec_filez_extract
    have hpow : (2 : Nat) ^ 32 = 4294967296 := by norm_num
    have heq : (be32 (filez.take 4) + (4 + 4)) % 2 ^ 32
        = (4 + be32 (filez.take 4) + 4) % 4294967296 := by
      rw [hpow]
      congr 1
      omega
    by_cases hlen : filez.length < 8
    · rw [if_pos hlen, if_neg (show ¬ 8 ≤ filez.length by omega)]
    · rw [if_neg hlen, if_pos (show 8 ≤ filez.length by omega)]
      by_cases hskip : (be32 (filez.take 4) + (4 + 4)) % 2 ^ 32 > filez.length
      · rw [if_pos hskip,
          if_neg (show ¬ (4 + be32 (filez.take 4) + 4) % 4294967296 ≤ filez.length by
            rw [← heq]; omega)]
      · rw [if_neg hskip,
          if_pos (show (4 + be32 (filez.take 4) + 4) % 4294967296 ≤ filez.length by
            rw [← heq]; omega), heq]
  unfold xdg_app_dir_fetch_metadata_result
  rw [hcore]

/-! The override store: `xdg_app_save_override_keyfile` writes the key
file to `<base>/overrides/<app-id>` with `g_key_file_save_to_file`,
and `xdg_app_load_override_keyfile` reads the same path back, parsing
with `g_key_file_load_from_data` (a missing file yields a fresh empty
key file).  GKeyFile serialization is external (GLib); it is embedded
below at the byte level from its documented format: one `[group]` line
per group followed by one `key=value` line per entry. -/

/-- One serialized `key=value` line. -/
def kf_entry_line (kv : String × String) : List Char :=
  kv.1.data ++ '=' :: kv.2.data

/-- One serialized `[group]` header line. -/
def kf_header_line (g : String) : List Char :=
  '[' :: g.data ++ [']']

/-- The serialized lines of one group. -/
def kf_group_lines (g : String × List (String × String)) : List (List Char) :=
  kf_header_line g.1 :: g.2.map kf_entry_line

/-- All serialized lines of a key file. -/
def kf_serialize_lines (k : KeyFile) : List (List Char) :=
  (k.map kf_group_lines).flatten

/-- Join lines, terminating each with a newline. -/
def joinLines : List (List Char) → List Char
  | [] => []
  | l :: ls => l ++ '\n' :: joinLines ls

/-- `g_key_file_to_data`: the serialized bytes of a key file. -/
def kf_serialize (k : KeyFile) : List Char :=
  joinLines (kf_serialize_lines k)

/-- Split the content at newlines. -/
def splitNl : List Char → List (List Char)
  | [] => [[]]
  | c :: cs =>
    if c = '\n' then [] :: splitNl cs
    else
      match splitNl cs with
      | [] => [[c]]
      | l :: ls => (c :: l) :: ls

/-- A `[group]` header line: starts with `[` and ends with `]`. -/
def isHeader (l : List Char) : Bool :=
  l.head? == some '[' && l.getLast? == some ']'

/-- The group name between the brackets. -/
def headerName (l : List Char) : List Char :=
  (l.drop 1).dropLast

/-- Split an entry line at the first `=`. -/
def splitEq : List Char → List Char × List Char
  | [] => ([], [])
  | c :: cs =>
    if c = '=' then ([], cs)
    else ((c :: (splitEq cs).1), (splitEq cs).2)

/-- Parse one `key=value` line. -/
def parseEntryLine (l : List Char) : String × String :=
  (String.mk (splitEq l).1, String.mk (splitEq l).2)

/-- Emit the group being accumulated, if any. -/
def flushOpt : Option (String × List (String × String)) → KeyFile
  | none => []
  | some g => [g]

/-- The line loop of `g_key_file_load_from_data`: blank lines are
skipped, a header line starts a new group, and other lines add an
entry to the current group (lines before any group are ignored here;
the well-formed round-trip never produces them). -/
def parseLoop : List (List Char) →
    Option (String × List (String × String)) → KeyFile
  | [], cur => flushOpt cur
  | l :: ls, cur =>
    if l = [] then parseLoop ls cur
    else if isHeader l then
      flushOpt cur ++ parseLoop ls (some (String.mk (headerName l), []))
    else
      match cur with
      | none => parseLoop ls none
      | some g => parseLoop ls (some (g.1, g.2 ++ [parseEntryLine l]))

/-- `g_key_file_load_from_data`: parse serialized bytes. -/
def kf_parse (content : List Char) : KeyFile :=
  parseLoop (splitNl content) none

/-- The override files on disk, one per (scope, app-id). -/
abbrev OverrideFS := Bool × String → Option (List Char)

/-- `xdg_app_save_override_keyfile`: serialize into
`<base>/overrides/<app-id>` of the scope chosen by `user`. -/
def xdg_app_save_override_keyfile (fs : OverrideFS) (metakey : KeyFile)
    (app_id : String) (user : Bool) : OverrideFS :=
  fun loc => if loc = (user, app_id) then some (kf_serialize metakey) else fs loc

/-- `xdg_app_load_override_keyfile`: read the same path back; a file
that cannot be loaded leaves the fresh key file empty. -/
def xdg_app_load_override_keyfile (fs : OverrideFS) (app_id : String)
    (user : Bool) : KeyFile :=
  match fs (user, app_id) with
  | none => []
  | some data => kf_parse data

/-- Well-formedness of one entry: a nonempty key that does not start
with `[`, contains no newline and no `=`; a value without newline. -/
def KFEntryWF (kv : String × String) : Prop :=
  kv.1 ≠ "" ∧ kv.1.data.head? ≠ some '[' ∧ '\n' ∉ kv.1.data ∧
  '=' ∉ kv.1.data ∧ '\n' ∉ kv.2.data

/-- Well-formedness of a key file: group names without newline or `]`,
entries well formed. -/
def KFWF (k : KeyFile) : Prop :=
  ∀ g ∈ k, ('\n' ∉ g.1.data ∧ ']' ∉ g.1.data) ∧ ∀ kv ∈ g.2, KFEntryWF kv

theorem splitNl_append (l rest : List Char) (h : '\n' ∉ l) :
    splitNl (l ++ '\n' :: rest) = l :: splitNl rest := by
  induction l with
  | nil =>
    rw [List.nil_append, splitNl, if_pos rfl]
  | cons c cs ih =>
    have hc : c ≠ '\n' := fun hh => h (hh ▸ List.mem_cons_self c cs)
    rw [List.cons_append, splitNl, if_neg hc,
      ih (fun hm => h (List.mem_cons_of_mem c hm))]

theorem splitNl_joinLines (lines : List (List Char))
    (h : ∀ l ∈ lines, '\n' ∉ l) :
    splitNl (joinLines lines) = lines ++ [[]] := by
  induction lines with
  | nil => rfl
  | cons l ls ih =>
    rw [joinLines, splitNl_append l _ (h l (List.mem_cons_self l ls)),
      ih (fun x hx => h x (List.mem_cons_of_mem l hx)), List.cons_append]

theorem splitEq_recover (k v : List Char) (hk : '=' ∉ k) :
    splitEq (k ++ '=' :: v) = (k, v) := by
  induction k with
  | nil => rw [List.nil_append, splitEq, if_pos rfl]
  | cons c cs ih =>
    have hc : c ≠ '=' := fun hh => hk (hh ▸ List.mem_cons_self c cs)
    rw [List.cons_append, splitEq, if_neg hc,
      ih (fun hm => hk (List.mem_cons_of_mem c hm))]

theorem string_mk_data (s : String) : String.mk s.data = s := rfl

theorem isHeader_entry_line (kv : String × String) (hk : KFEntryWF kv) :
    isHeader (kf_entry_line kv) = false := by
  unfold isHeader kf_entry_line
  cases hd : kv.1.data with
  | nil =>
    rw [List.nil_append]
    simp
  | cons c cs =>
    have : c ≠ '[' := by
      intro hc
      apply hk.2.1
      rw [hd, hc]
      rfl
    simp [this]

theorem entry_line_ne_nil (kv : String × String) :
    kf_entry_line kv ≠ [] := by
  unfold kf_entry_line
  cases hd : kv.1.data with
  | nil => simp
  | cons c cs => simp

theorem parseEntryLine_entry_line (kv : String × String) (hk : KFEntryWF kv) :
    parseEntryLine (kf_entry_line kv) = kv := by
  unfold parseEntryLine kf_entry_line
  rw [splitEq_recover _ _ hk.2.2.2.1]

theorem parseLoop_entries (es : List (String × String)) :
    ∀ (rest : List (List Char)) (g : String) (acc : List (String × String)),
    (∀ kv ∈ es, KFEntryWF kv) →
    parseLoop (es.map kf_entry_line ++ rest) (some (g, acc))
      = parseLoop rest (some (g, acc ++ es)) := by
  induction es with
  | nil => intro rest g acc _; rw [List.map_nil, List.nil_append, List.append_nil]
  | cons kv kvs ih =>
    intro rest g acc hes
    have hkv := hes kv (List.mem_cons_self kv kvs)
    rw [List.map_cons, List.cons_append, parseLoop,
      if_neg (entry_line_ne_nil kv)]
    rw [if_neg (by rw [isHeader_entry_line kv hkv]; exact Bool.false_ne_true)]
    rw [parseEntryLine_entry_line kv hkv]
    rw [ih rest g (acc ++ [kv]) (fun x hx => hes x (List.mem_cons_of_mem kv hx))]
    rw [List.append_assoc, List.singleton_append]

theorem header_line_ne_nil (g : String) : kf_header_line g ≠ [] := by
  unfold kf_header_line
  simp

theorem isHeader_header_line (g : String) : isHeader (kf_header_line g) = true := by
  unfold isHeader kf_header_line
  have h1 : ('[' :: g.data ++ [']']).head? = some '[' := rfl
  have h2 : ('[' :: g.data ++ [']']).getLast? = some ']' := by
    rw [show ('[' :: g.data ++ [']']) = ('[' :: g.data) ++ [']'] from rfl,
      List.getLast?_concat]
  rw [h1, h2]
  rfl

theorem headerName_header_line (g : String) :
    headerName (kf_header_line g) = g.data := by
  unfold headerName kf_header_line
  rw [show (('[' :: g.data ++ [']']).drop 1) = g.data ++ [']'] from rfl,
    List.dropLast_concat]

theorem parseLoop_serialize (k : KeyFile) :
    ∀ cur, KFWF k →
    parseLoop (kf_serialize_lines k ++ [[]]) cur = flushOpt cur ++ k := by
  induction k with
  | nil =>
    intro cur _
    show parseLoop [[]] cur = flushOpt cur ++ []
    rw [List.append_nil]
    simp [parseLoop]
  | cons g gs ih =>
    intro cur hwf
    have hg := hwf g (List.mem_cons_self g gs)
    have hlines : kf_serialize_lines (g :: gs)
        = kf_header_line g.1 :: (g.2.map kf_entry_line ++ kf_serialize_lines gs) := by
      unfold kf_serialize_lines kf_group_lines
      rw [List.map_cons, List.flatten_cons, List.cons_append]
    rw [hlines, List.cons_append, parseLoop.eq_def]
    simp only [header_line_ne_nil g.1, isHeader_header_line g.1, if_true,
      if_false, ite_false, ite_true, reduceIte]
    rw [headerName_header_line, string_mk_data]
    rw [List.append_assoc]
    rw [parseLoop_entries g.2 _ g.1 [] hg.2]
    rw [ih (some (g.1, [] ++ g.2)) (fun x hx => hwf x (List.mem_cons_of_mem g hx))]
    simp [flushOpt]

theorem serialize_lines_no_newline (k : KeyFile) (hwf : KFWF k) :
    ∀ l ∈ kf_serialize_lines k, '\n' ∉ l := by
  intro l hl
  unfold kf_serialize_lines at hl
  rw [List.mem_flatten] at hl
  obtain ⟨ls, hls, hl2⟩ := hl
  rw [List.mem_map] at hls
  obtain ⟨g, hgk, rfl⟩ := hls
  have hg := hwf g hgk
  unfold kf_group_lines at hl2
  rcases List.mem_cons.mp hl2 with rfl | hl3
  · unfold kf_header_line
    intro hmem
    rcases List.mem_cons.mp hmem with heq | hmem2
    · exact absurd heq (by decide)
    · rcases List.mem_append.mp hmem2 with h1 | h2
      · exact hg.1.1 h1
      · exact absurd (List.mem_singleton.mp h2) (by decide)
  · rw [List.mem_map] at hl3
    obtain ⟨kv, hkv, rfl⟩ := hl3
    have hkvwf := hg.2 kv hkv
    unfold kf_entry_line
    intro hmem
    rcases List.mem_append.mp hmem with h1 | h2
    · exact hkvwf.2.2.1 h1
    · rcases List.mem_cons.mp h2 with heq | h3
      · exact absurd heq (by decide)
      · exact hkvwf.2.2.2.2 h3

theorem kf_parse_serialize (k : KeyFile) (hwf : KFWF k) :
    kf_parse (kf_serialize k) = k := by
  unfold kf_parse kf_serialize
  rw [splitNl_joinLines _ (serialize_lines_no_newline k hwf)]
  rw [parseLoop_serialize k none hwf]
  rfl

/-- C9: saving an override key file for an app id and scope and
loading it back for the same app id and scope yields an equal key
file (for well-formed key files, which GKeyFile construction
guarantees). -/
theorem claim_C9 (fs : OverrideFS) (k : KeyFile) (app_id : String)
    (user : Bool) (hwf : KFWF k) :
    xdg_app_load_override_keyfile
        (xdg_app_save_override_keyfile fs k app_id user) app_id user = k := by
  unfold xdg_app_load_override_keyfile xdg_app_save_override_keyfile
  rw [if_pos rfl]
  exact kf_parse_serialize k hwf

/-- Witness for C9 at a concrete override key file. -/
theorem claim_C9_witness :
    xdg_app_load_override_keyfile
        (xdg_app_save_override_keyfile (fun _ => none)
          [("Context", [("shared", "network;"), ("sockets", "x11;")])]
          "org.gnome.gedit" true)
        "org.gnome.gedit" true
      = [("Context", [("shared", "network;"), ("sockets", "x11;")])] :=
  claim_C9 (fun _ => none) _ "org.gnome.gedit" true
    (by unfold KFWF KFEntryWF; decide)
